import Mathlib

/-!
Verification of the Flow-OS text-to-graph conversion utility
(`textToGraph.ts`): parsing a step-description string into an ordered
step list, computing dependency levels, assigning 2-D layout
coordinates, and validating the resulting graph.

The TypeScript source is shallowly embedded: JS numbers used as levels
are modelled as `WithBot Int` (JS `Math.max()` of an empty spread is
`-Infinity`, modelled as `⊥`; `-Infinity + 1 = -Infinity` matches
`⊥ + 1 = ⊥`), coordinates as `ℚ`, JS `Map`s as association lists where
an insert conses to the front and lookup takes the first hit (the JS
`Map.get` returns the most recent `set`), and the unbounded recursion
of `getLevel` is embedded with an explicit fuel parameter: `none`
means the recursion did not complete within the given depth.
-/

namespace Flow

-- ===========================================================================
-- Data model (from src/lib/types/graph.ts)
-- ===========================================================================

inductive GraphNodeType where
  | input
  | default
  | output
deriving DecidableEq

structure NodePosition where
  x : ℚ
  y : ℚ
deriving DecidableEq

structure GraphNodeData where
  label : String
  description : Option String
deriving DecidableEq

structure GraphNode where
  id : String
  type : GraphNodeType
  position : NodePosition
  data : GraphNodeData
deriving DecidableEq

structure GraphEdge where
  id : String
  source : String
  target : String
  animated : Option Bool
deriving DecidableEq

structure GraphStructure where
  nodes : List GraphNode
  edges : List GraphEdge
deriving DecidableEq

structure WorkflowStep where
  id : String
  name : String
  description : Option String
  type : GraphNodeType
  dependencies : Option (List String)
deriving DecidableEq

structure ParsedWorkflow where
  title : Option String
  description : Option String
  steps : List WorkflowStep
deriving DecidableEq

inductive FlowDirection where
  | TB
  | LR
  | BT
  | RL
deriving DecidableEq

structure GraphLayoutOptions where
  direction : Option FlowDirection := none
  nodeSpacing : Option ℚ := none
  levelSpacing : Option ℚ := none
  startPosition : Option NodePosition := none
deriving DecidableEq

/-- Fully resolved layout options (`Required<GraphLayoutOptions>`). -/
structure LayoutConfig where
  direction : FlowDirection
  nodeSpacing : ℚ
  levelSpacing : ℚ
  startPosition : NodePosition
deriving DecidableEq

structure GraphValidationResult where
  isValid : Bool
  errors : List String
  warnings : List String
deriving DecidableEq

structure TextToGraphResult where
  success : Bool
  graph : Option GraphStructure
  error : Option String
  rawParsed : Option ParsedWorkflow
deriving DecidableEq

/-- Constant `DEFAULT_LAYOUT_OPTIONS` from the source. -/
def DEFAULT_LAYOUT_OPTIONS : LayoutConfig :=
  { direction := .TB
    nodeSpacing := 200
    levelSpacing := 150
    startPosition := { x := 250, y := 50 } }

/-- The spread `{ ...DEFAULT_LAYOUT_OPTIONS, ...options }`: a present
option field overrides the default. -/
def resolveOptions : Option GraphLayoutOptions → LayoutConfig
  | none => DEFAULT_LAYOUT_OPTIONS
  | some o =>
    { direction := o.direction.getD DEFAULT_LAYOUT_OPTIONS.direction
      nodeSpacing := o.nodeSpacing.getD DEFAULT_LAYOUT_OPTIONS.nodeSpacing
      levelSpacing := o.levelSpacing.getD DEFAULT_LAYOUT_OPTIONS.levelSpacing
      startPosition := o.startPosition.getD DEFAULT_LAYOUT_OPTIONS.startPosition }

-- ===========================================================================
-- JS string helpers (trim, includes, toLowerCase, number printing)
-- ===========================================================================

/-- ASCII whitespace recognised by JS `trim` and the regex class. -/
def isWS (c : Char) : Bool :=
  c = ' ' || c = '\t' || c = '\n' || c = '\r' || c = '\x0b' || c = '\x0c'

/-- JS `String.prototype.trim`. -/
def jsTrim (s : String) : String :=
  ⟨((s.data.dropWhile isWS).reverse.dropWhile isWS).reverse⟩

/-- Bool test that the first list is a prefix of the second. -/
def isPrefixL : List Char → List Char → Bool
  | [], _ => true
  | _ :: _, [] => false
  | a :: as, b :: bs => a = b && isPrefixL as bs

/-- Bool test that `needle` occurs as a contiguous sublist of `hay`. -/
def containsSub : List Char → List Char → Bool
  | [], needle => needle.isEmpty
  | c :: t, needle => isPrefixL needle (c :: t) || containsSub t needle

/-- JS `String.prototype.includes` (case-sensitive). -/
def containsStr (s pat : String) : Bool :=
  containsSub s.data pat.data

/-- JS `String.prototype.toLowerCase` (ASCII range). -/
def jsLower (s : String) : String :=
  ⟨s.data.map Char.toLower⟩

/-- Decimal digit printing, the core of number-to-string conversion
(the fuel argument makes the recursion structural; callers pass
`n + 1` which always suffices). -/
def toDecAux : Nat → Nat → List Char → List Char
  | 0, _, acc => acc
  | fuel + 1, n, acc =>
    let d := Nat.digitChar (n % 10)
    if n / 10 = 0 then d :: acc else toDecAux fuel (n / 10) (d :: acc)

/-- JS number-to-string for a nonnegative integer (decimal). -/
def natToStr (n : Nat) : String :=
  ⟨toDecAux (n + 1) n []⟩

/-- The template literal `step-N`. -/
def stepId (n : Nat) : String :=
  ("step-") ++ natToStr n

/-- The template literal `edge-N`. -/
def edgeId (n : Nat) : String :=
  ("edge-") ++ natToStr n

-- ===========================================================================
-- Level assignment (`getLevel` inside `calculateNodePositions`)
-- ===========================================================================

/-- The mutable `levels` map: newest entries in front. -/
abbrev LevelMemo := List (String × WithBot Int)

/-- JS `Map.get`: the value of the most recent `set` for the key. -/
def alookup {α : Type} (key : String) : List (String × α) → Option α
  | [] => none
  | (k, v) :: rest => if key = k then some v else alookup key rest

/-- Lookup `stepMap.get`, where `stepMap = new Map(steps.map(s => [s.id, s]))`:
on duplicate ids the last occurrence wins. -/
def stepMapGet (steps : List WorkflowStep) (sid : String) : Option WorkflowStep :=
  alookup sid (steps.map (fun s => (s.id, s))).reverse

/-- The memoised recursive `getLevel`. A step that is absent or has no
dependencies gets level 0; otherwise the level is
`max(levels of resolvable dependencies) + 1` where `Math.max()` over an
empty spread is `-Infinity` (`⊥`). The fuel bounds the recursion depth;
`none` models a recursion that never bottoms out (the source has no
cycle guard: its `visited` set is declared but never used). -/
def getLevelF : Nat → List WorkflowStep → LevelMemo → String → Option (WithBot Int × LevelMemo)
  | 0, _, _, _ => none
  | fuel + 1, steps, memo, sid =>
    match alookup sid memo with
    | some l => some (l, memo)
    | none =>
      match stepMapGet steps sid with
      | none => some (0, (sid, 0) :: memo)
      | some step =>
        match step.dependencies with
        | none => some (0, (sid, 0) :: memo)
        | some deps =>
          if deps.length = 0 then some (0, (sid, 0) :: memo)
          else
            let rdeps := deps.filter (fun d => (stepMapGet steps d).isSome)
            match rdeps.foldl (fun acc d =>
              match acc with
              | none => none
              | some (ls, m) =>
                match getLevelF fuel steps m d with
                | none => none
                | some (l, m2) => some (ls ++ [l], m2))
              (some (([] : List (WithBot Int)), memo)) with
            | none => none
            | some (ls, m2) =>
              let level := ls.foldr max ⊥ + 1
              some (level, (sid, level) :: m2)

/-- Loop `steps.forEach(step => getLevel(step.id))`: compute levels for all
steps, threading the shared `levels` map. -/
def computeLevelsF (fuel : Nat) (steps : List WorkflowStep) : Option LevelMemo :=
  steps.foldl (fun acc s =>
    match acc with
    | none => none
    | some m =>
      match getLevelF fuel steps m s.id with
      | none => none
      | some (_, m2) => some m2) (some [])

-- ===========================================================================
-- C1 / C4 test inputs
-- ===========================================================================

/-- A single step whose only listed dependency references no step. -/
def unresolvedDemoSteps : List WorkflowStep :=
  [{ id := "x", name := "Use data", description := none,
     type := .default, dependencies := some [("missing")] }]

/-- Two steps forming a dependency cycle (externally constructed; the
linear parser never produces this). -/
def cycleSteps : List WorkflowStep :=
  [{ id := "a", name := "a", description := none,
     type := .default, dependencies := some [("b")] },
   { id := "b", name := "b", description := none,
     type := .default, dependencies := some [("a")] }]

/-- C1: a step whose dependency list is non-empty but entirely
unresolvable does NOT get level 0: the filter leaves an empty list,
`Math.max()` of an empty spread is `-Infinity` (`⊥`), and
`-Infinity + 1 = -Infinity`, so the computed level is `⊥`, not `0`.
This contradicts the claim (and the spec), which promise level 0. -/
theorem getLevel_unresolved_deps_bottom :
    getLevelF 2 unresolvedDemoSteps [] ("x") = some (⊥, [(("x" : String), (⊥ : WithBot Int))]) ∧
    (getLevelF 2 unresolvedDemoSteps [] ("x")).map Prod.fst ≠ some (0 : WithBot Int) := by
  decide

/-- C4: the level recursion does not terminate on a dependency cycle.
For every recursion-depth bound the computation fails to complete
(the source's `visited` set is dead code: there is no revisit
detection, and in JS the call overflows the stack). -/
theorem getLevel_cycle_no_termination :
    ∀ fuel : Nat, getLevelF fuel cycleSteps [] ("a") = none ∧
      getLevelF fuel cycleSteps [] ("b") = none := by
  intro fuel
  induction fuel with
  | zero => exact ⟨rfl, rfl⟩
  | succ n ih =>
    have ha := ih.1
    have hb := ih.2
    simp only [cycleSteps] at ha hb
    constructor
    · show getLevelF (n + 1) cycleSteps [] ("a") = none
      simp [getLevelF, stepMapGet, alookup, cycleSteps, ha, hb]
    · show getLevelF (n + 1) cycleSteps [] ("b") = none
      simp [getLevelF, stepMapGet, alookup, cycleSteps, ha, hb]

-- ===========================================================================
-- Step classifier (`detectStepType`)
-- ===========================================================================

/-- Keyword-based step type detection. Entry keywords (or position 0)
are checked before exit keywords (or last position). The positional
exit comparison `index === total - 1` is over JS numbers, hence the
`Int` cast. -/
def detectStepType (name : String) (index : Nat) (total : Nat) : GraphNodeType :=
  let lowerName := jsLower name
  if containsStr lowerName ("start") || containsStr lowerName ("input") ||
      containsStr lowerName ("receive") || containsStr lowerName ("trigger") ||
      containsStr lowerName ("begin") || index == 0 then
    .input
  else if containsStr lowerName ("end") || containsStr lowerName ("output") ||
      containsStr lowerName ("finish") || containsStr lowerName ("complete") ||
      containsStr lowerName ("send") || containsStr lowerName ("deliver") ||
      containsStr lowerName ("return") || (index : Int) == (total : Int) - 1 then
    .output
  else
    .default

-- ===========================================================================
-- Text splitting (`parseSimpleText` helpers)
-- ===========================================================================

/-- JS `String.prototype.split` with a literal separator: split on every
left-to-right non-overlapping occurrence, keeping empty segments. The
fuel (initially the input length) makes the recursion structural; each
step consumes at least one character, so it never runs out. -/
def splitLitAux : Nat → List Char → List Char → List Char → List (List Char)
  | 0, _, acc, cs => [acc.reverse ++ cs]
  | _ + 1, _, acc, [] => [acc.reverse]
  | fuel + 1, sep, acc, c :: rest =>
    if isPrefixL sep (c :: rest) then
      acc.reverse :: splitLitAux fuel sep [] ((c :: rest).drop sep.length)
    else
      splitLitAux fuel sep (c :: acc) rest

/-- JS `s.split(sep)` for a non-empty literal separator. -/
def jsSplit (sep s : String) : List String :=
  (splitLitAux s.data.length sep.data [] s.data).map (fun l => (⟨l⟩ : String))

/-- Try to match the regex `\s+then\s+` (case-insensitive) at the head
of the list: at least one whitespace character, then `then` in any
case, then at least one whitespace character (each `\s+` greedy).
Returns the remainder after the match. -/
def matchThen (cs : List Char) : Option (List Char) :=
  let ws1 := cs.takeWhile isWS
  if ws1.isEmpty then none
  else
    match cs.dropWhile isWS with
    | t :: h :: e :: n :: rest2 =>
      if t.toLower = 't' ∧ h.toLower = 'h' ∧ e.toLower = 'e' ∧ n.toLower = 'n' then
        if (rest2.takeWhile isWS).isEmpty then none
        else some (rest2.dropWhile isWS)
      else none
    | _ => none

/-- JS `s.split(/\s+then\s+/i)`: scan left to right for the leftmost
match and split there. Fuel as in `splitLitAux`. -/
def splitThenAux : Nat → List Char → List Char → List (List Char)
  | 0, acc, cs => [acc.reverse ++ cs]
  | _ + 1, acc, [] => [acc.reverse]
  | fuel + 1, acc, c :: rest =>
    match matchThen (c :: rest) with
    | some after => acc.reverse :: splitThenAux fuel [] after
    | none => splitThenAux fuel (c :: acc) rest

/-- JS `s.split(/\s+then\s+/i)`. -/
def splitThenF (s : String) : List String :=
  (splitThenAux s.data.length [] s.data).map (fun l => (⟨l⟩ : String))

/-- The regex replace `line.replace(/^\d+[\.\)]\s*/, '')`: strip a
leading run of digits followed by `.` or `)` and optional whitespace;
if the prefix does not match, the line is unchanged. -/
def stripOrdinal (cs : List Char) : List Char :=
  let ds := cs.takeWhile (fun c => c.isDigit)
  if ds.isEmpty then cs
  else
    match cs.drop ds.length with
    | c :: rest => if c = '.' ∨ c = ')' then rest.dropWhile isWS else cs
    | [] => cs

-- ===========================================================================
-- `parseSimpleText`
-- ===========================================================================

/-- The step pushed for segment `part` at 0-based `index` out of
`total` segments. -/
def chainStep (total : Nat) (index : Nat) (part : String) : WorkflowStep :=
  { id := stepId (index + 1)
    name := part
    description := none
    type := detectStepType part index total
    dependencies := if index > 0 then some [stepId index] else none }

/-- Loop `parts.forEach((part, index) => steps.push(...))`: each surviving
segment becomes a step with positional id, classified type, and a
dependency on the previous step. -/
def partsToSteps (parts : List String) : List WorkflowStep :=
  parts.enum.map (fun p => chainStep parts.length p.1 p.2)

/-- The rules-based parser: format detection in strict priority order
(arrow, newline, comma, lowercase `" then "`, single step), then step
construction. Note the `" then "` trigger uses the case-sensitive JS
`includes`, while the split regex itself is case-insensitive. -/
def parseSimpleText (text : String) : ParsedWorkflow :=
  let cleanText := jsTrim text
  let parts : List String :=
    if containsStr cleanText ("->") then
      ((jsSplit ("->") cleanText).map jsTrim).filter (fun p => p ≠ (""))
    else if containsStr cleanText ("\n") then
      ((jsSplit ("\n") cleanText).map (fun line =>
        jsTrim (⟨stripOrdinal line.data⟩))).filter (fun p => p ≠ (""))
    else if containsStr cleanText (",") then
      ((jsSplit (",") cleanText).map jsTrim).filter (fun p => p ≠ (""))
    else if containsStr cleanText (" then ") then
      ((splitThenF cleanText).map jsTrim).filter (fun p => p ≠ (""))
    else
      [cleanText]
  { title := none, description := none, steps := partsToSteps parts }

/-- The names of the produced steps are exactly the surviving segments,
in order. -/
theorem partsToSteps_map_name (parts : List String) :
    (partsToSteps parts).map (fun s => s.name) = parts := by
  simp only [partsToSteps, List.map_map]
  exact List.enum_map_snd parts

/-- C2: the entry-keyword check is evaluated before the positional exit
check: at the last position (`index = total - 1`), a name whose
lower-casing contains one of start/input/receive/trigger/begin is
classified `input` (entry), not `output` (exit). -/
theorem detectStepType_entry_keyword_wins (name : String) (index total : Nat)
    (_hlast : (index : Int) = (total : Int) - 1)
    (hkw : (containsStr (jsLower name) ("start") || containsStr (jsLower name) ("input") ||
      containsStr (jsLower name) ("receive") || containsStr (jsLower name) ("trigger") ||
      containsStr (jsLower name) ("begin")) = true) :
    detectStepType name index total = GraphNodeType.input := by
  simp only [detectStepType]
  simp [hkw]

/-- Witness for C2 at the claim's concrete instance:
`classify("Start wrap-up", 3, 4)` is `entry`. -/
theorem detectStepType_entry_keyword_wins_witness :
    detectStepType ("Start wrap-up") 3 4 = GraphNodeType.input :=
  detectStepType_entry_keyword_wins ("Start wrap-up") 3 4 (by decide) (by decide)

/-- C3 counterexample: `"A Then B"` contains `" then "` up to case (and
no arrow, newline or comma), yet the `then` split is NOT triggered —
the trigger `includes(' then ')` is case-sensitive — so the parser
returns a single step named `"A Then B"` instead of the two steps the
claim predicts. -/
theorem parseSimpleText_then_trigger_case_sensitive_cex :
    containsStr (jsLower (jsTrim ("A Then B"))) (" then ") = true ∧
    containsStr (jsTrim ("A Then B")) ("->") = false ∧
    containsStr (jsTrim ("A Then B")) ("\n") = false ∧
    containsStr (jsTrim ("A Then B")) (",") = false ∧
    (parseSimpleText ("A Then B")).steps.map (fun s => s.name) = [("A Then B")] ∧
    (parseSimpleText ("A Then B")).steps.length ≠ 2 := by
  decide

/-- C3 as amended: rule 4 fires only when the trimmed input (with no
arrow, newline or comma) contains the literal lowercase `" then "`;
it then splits on the case-insensitive regex `\s+then\s+`, trims each
segment and drops empty segments. -/
theorem parseSimpleText_then_branch (text : String)
    (h1 : containsStr (jsTrim text) ("->") = false)
    (h2 : containsStr (jsTrim text) ("\n") = false)
    (h3 : containsStr (jsTrim text) (",") = false)
    (h4 : containsStr (jsTrim text) (" then ") = true) :
    (parseSimpleText text).steps.map (fun s => s.name) =
      ((splitThenF (jsTrim text)).map jsTrim).filter (fun p => p ≠ ("")) := by
  simp only [parseSimpleText, h1, h2, h3, h4, Bool.false_eq_true, if_false, if_true]
  exact partsToSteps_map_name _

/-- Witness for C3's amended theorem: a mixed-case input where the
lowercase occurrence triggers the branch. -/
theorem parseSimpleText_then_branch_witness :
    (parseSimpleText ("a then B Then c")).steps.map (fun s => s.name) =
      ((splitThenF (jsTrim ("a then B Then c"))).map jsTrim).filter (fun p => p ≠ ("")) :=
  parseSimpleText_then_branch ("a then B Then c")
    (by decide) (by decide) (by decide) (by decide)

-- ===========================================================================
-- Graph generation (`stepToNode`, `generateEdges`)
-- ===========================================================================

/-- Convert a WorkflowStep to a GraphNode. -/
def stepToNode (step : WorkflowStep) (position : NodePosition) : GraphNode :=
  { id := step.id
    type := step.type
    position := position
    data := { label := step.name, description := step.description } }

/-- Body of the inner `forEach` of `generateEdges`: push one edge per
dependency entry, incrementing the shared `edgeIndex`. -/
def genEdgeStep (tgtId : String) (acc2 : List GraphEdge × Nat) (sourceId : String) :
    List GraphEdge × Nat :=
  (acc2.1 ++
    [{ id := edgeId acc2.2, source := sourceId, target := tgtId, animated := some true }],
    acc2.2 + 1)

/-- Body of the outer `forEach` of `generateEdges`. -/
def genEdgesStep (acc : List GraphEdge × Nat) (step : WorkflowStep) :
    List GraphEdge × Nat :=
  match step.dependencies with
  | none => acc
  | some deps => deps.foldl (genEdgeStep step.id) acc

/-- Generate edges from workflow step dependencies: one edge per listed
dependency id, with no check that the id resolves to a step. -/
def generateEdges (steps : List WorkflowStep) : List GraphEdge :=
  (steps.foldl genEdgesStep (([], 0))).1

/-- All (source, target) dependency pairs of a step list, in step order
then dependency order. -/
def depPairs (steps : List WorkflowStep) : List (String × String) :=
  steps.flatMap (fun s => (s.dependencies.getD []).map (fun d => (d, s.id)))

/-- An edge from an indexed dependency pair. -/
def mkDepEdge (p : Nat × (String × String)) : GraphEdge :=
  { id := edgeId p.1, source := p.2.1, target := p.2.2, animated := some true }

/-- Declarative description of `generateEdges`: exactly one edge per
dependency entry, enumerated `edge-0`, `edge-1`, ... in order. -/
def specEdges (steps : List WorkflowStep) : List GraphEdge :=
  (depPairs steps).enum.map mkDepEdge

theorem genEdgeStep_foldl (tgtId : String) :
    ∀ (deps : List String) (acc : List GraphEdge) (k : Nat),
      deps.foldl (genEdgeStep tgtId) (acc, k) =
        (acc ++ (List.enumFrom k (deps.map (fun d => (d, tgtId)))).map mkDepEdge,
          k + deps.length) := by
  intro deps
  induction deps with
  | nil => intro acc k; simp
  | cons d ds ih =>
    intro acc k
    simp only [List.foldl_cons, genEdgeStep, List.map_cons, List.enumFrom,
      List.map, ih, List.append_assoc, List.singleton_append, List.length_cons,
      mkDepEdge, Prod.mk.injEq]
    exact ⟨trivial, by omega⟩

theorem genEdgesStep_foldl :
    ∀ (steps : List WorkflowStep) (acc : List GraphEdge) (k : Nat),
      steps.foldl genEdgesStep (acc, k) =
        (acc ++ (List.enumFrom k (depPairs steps)).map mkDepEdge,
          k + (depPairs steps).length) := by
  intro steps
  induction steps with
  | nil => intro acc k; simp [depPairs]
  | cons s rest ih =>
    intro acc k
    have hdp : depPairs (s :: rest) =
        (s.dependencies.getD []).map (fun d => (d, s.id)) ++ depPairs rest := by
      simp [depPairs]
    rw [List.foldl_cons]
    cases hdep : s.dependencies with
    | none =>
      have : genEdgesStep (acc, k) s = (acc, k) := by
        simp [genEdgesStep, hdep]
      rw [this, ih, hdp, hdep]
      simp
    | some deps =>
      have : genEdgesStep (acc, k) s = deps.foldl (genEdgeStep s.id) (acc, k) := by
        simp [genEdgesStep, hdep]
      rw [this, genEdgeStep_foldl, ih, hdp, hdep]
      simp [List.enumFrom_append, List.append_assoc]
      omega

/-- Function `generateEdges` agrees with its declarative description. -/
theorem generateEdges_eq_specEdges (steps : List WorkflowStep) :
    generateEdges steps = specEdges steps := by
  rw [generateEdges, specEdges, genEdgesStep_foldl steps [] 0, List.enum]
  simp

-- ===========================================================================
-- Validation (`validateGraph`)
-- ===========================================================================

def edgeSourceMsg (e : GraphEdge) : String :=
  ("Edge \"") ++ e.id ++ ("\" references non-existent source node \"") ++ e.source ++ ("\"")

def edgeTargetMsg (e : GraphEdge) : String :=
  ("Edge \"") ++ e.id ++ ("\" references non-existent target node \"") ++ e.target ++ ("\"")

def selfLoopMsg (e : GraphEdge) : String :=
  ("Edge \"") ++ e.id ++ ("\" is a self-loop")

def dupMsg (e : GraphEdge) : String :=
  ("Duplicate edge from \"") ++ e.source ++ ("\" to \"") ++ e.target ++ ("\"")

def isolatedMsg (nd : GraphNode) : String :=
  ("Node \"") ++ nd.id ++ ("\" is not connected to any other node")

/-- The key string used by the duplicate-edge `Set`. -/
def edgeKey (e : GraphEdge) : String :=
  e.source ++ ("->") ++ e.target

/-- Second edge loop of `validateGraph`: warn on every edge whose key
was already seen, then add the key. -/
def dupWarnAux : List GraphEdge → List String → List String
  | [], _ => []
  | e :: rest, seen =>
    (if edgeKey e ∈ seen then [dupMsg e] else []) ++ dupWarnAux rest (edgeKey e :: seen)

/-- The edges flagged by the duplicate-edge loop (every occurrence of a
key after its first). -/
def dupMarked : List GraphEdge → List String → List GraphEdge
  | [], _ => []
  | e :: rest, seen =>
    (if edgeKey e ∈ seen then [e] else []) ++ dupMarked rest (edgeKey e :: seen)

/-- Validate a graph structure: three blocking error checks and three
non-blocking warning checks, all performed; `isValid` is exactly
"no errors". -/
def validateGraph (graph : GraphStructure) : GraphValidationResult :=
  let noNodesErrors : List String :=
    if graph.nodes.length = 0 then [("Graph has no nodes")] else []
  let nodeIds := graph.nodes.map (fun n => n.id)
  let dupIdErrors : List String :=
    if nodeIds.dedup.length ≠ graph.nodes.length then
      [("Graph contains duplicate node IDs")]
    else []
  let endpointErrors : List String :=
    graph.edges.flatMap (fun e =>
      (if e.source ∈ nodeIds then [] else [edgeSourceMsg e]) ++
      (if e.target ∈ nodeIds then [] else [edgeTargetMsg e]))
  let selfLoopWarnings : List String :=
    (graph.edges.filter (fun e => e.source = e.target)).map selfLoopMsg
  let dupWarnings := dupWarnAux graph.edges []
  let isolatedWarnings : List String :=
    graph.nodes.flatMap (fun nd =>
      if (graph.edges.any (fun e => e.source = nd.id || e.target = nd.id)) = false ∧
          1 < graph.nodes.length then
        [isolatedMsg nd]
      else [])
  let errors := noNodesErrors ++ dupIdErrors ++ endpointErrors
  { isValid := errors.isEmpty
    errors := errors
    warnings := selfLoopWarnings ++ dupWarnings ++ isolatedWarnings }

theorem dupWarnAux_eq_map :
    ∀ (edges : List GraphEdge) (seen : List String),
      dupWarnAux edges seen = (dupMarked edges seen).map dupMsg := by
  intro edges
  induction edges with
  | nil => intro seen; rfl
  | cons e rest ih =>
    intro seen
    by_cases h : edgeKey e ∈ seen <;> simp [dupWarnAux, dupMarked, h, ih]

theorem dupMarked_countP (k : String) :
    ∀ (edges : List GraphEdge) (seen : List String),
      (dupMarked edges seen).countP (fun e => edgeKey e = k) =
        edges.countP (fun e => edgeKey e = k) - (if k ∈ seen then 0 else 1) := by
  intro edges
  induction edges with
  | nil => intro seen; by_cases h : k ∈ seen <;> simp [dupMarked, h]
  | cons e rest ih =>
    intro seen
    by_cases hk : edgeKey e = k
    · subst hk
      have hs2 : edgeKey e ∈ edgeKey e :: seen := List.mem_cons_self _ _
      have hrec := ih (edgeKey e :: seen)
      rw [if_pos hs2] at hrec
      by_cases hs : edgeKey e ∈ seen
      · simp [dupMarked, hs, hrec, List.countP_cons]
      · simp only [dupMarked, if_neg hs, List.nil_append, hrec, List.countP_cons]
        simp
    · have hmem : (k ∈ edgeKey e :: seen) ↔ (k ∈ seen) := by
        constructor
        · intro h
          rcases List.mem_cons.mp h with h1 | h1
          · exact absurd h1.symm hk
          · exact h1
        · exact fun h => List.mem_cons_of_mem _ h
      by_cases hs : edgeKey e ∈ seen <;>
        by_cases hks : k ∈ seen <;>
          simp [dupMarked, hs, ih, List.countP_cons, hk, hmem, hks]

-- ===========================================================================
-- C9 / C10
-- ===========================================================================

/-- A hand-built graph with the same source→target pair three times. -/
def dupDemoGraph : GraphStructure :=
  { nodes :=
      [{ id := "A", type := .input, position := { x := 0, y := 0 },
         data := { label := "A", description := none } },
       { id := "B", type := .output, position := { x := 0, y := 0 },
         data := { label := "B", description := none } }]
    edges :=
      [{ id := "e1", source := "A", target := "B", animated := none },
       { id := "e2", source := "A", target := "B", animated := none },
       { id := "e3", source := "A", target := "B", animated := none }] }

/-- C9 counterexample: the pair A→B occurs three times, and the
validator emits TWO duplicate-edge warnings for it (one per occurrence
after the first), not exactly one; the warnings leave the graph valid. -/
theorem validateGraph_dup_warning_per_occurrence_cex :
    (validateGraph dupDemoGraph).warnings.countP
      (fun w => w = dupMsg { id := "e1", source := "A", target := "B", animated := none }) = 2 ∧
    (2 : Nat) ≠ 1 ∧
    (validateGraph dupDemoGraph).isValid = true := by
  decide

/-- C9 as amended: the duplicate-edge loop warns once per occurrence of
an edge key (`source ++ "->" ++ target`) beyond the first — `k - 1`
warnings for a key appearing `k` times — the warning list is exactly
self-loop warnings, then duplicate warnings, then isolated-node
warnings, and warnings never affect validity
(`isValid = (errors.length == 0)`). -/
theorem validateGraph_duplicate_warnings :
    (∀ g : GraphStructure, (validateGraph g).isValid = true ↔ (validateGraph g).errors = []) ∧
    (∀ g : GraphStructure, (validateGraph g).warnings =
      ((g.edges.filter (fun e => e.source = e.target)).map selfLoopMsg) ++
      (dupMarked g.edges []).map dupMsg ++
      (g.nodes.flatMap (fun nd =>
        if (g.edges.any (fun e => e.source = nd.id || e.target = nd.id)) = false ∧
            1 < g.nodes.length then
          [isolatedMsg nd]
        else []))) ∧
    (∀ (edges : List GraphEdge) (k : String),
      (dupMarked edges []).countP (fun e => edgeKey e = k) =
        edges.countP (fun e => edgeKey e = k) - 1) := by
  refine ⟨fun g => ?_, fun g => ?_, fun edges k => ?_⟩
  · simp [validateGraph, List.isEmpty_iff]
  · simp [validateGraph, dupWarnAux_eq_map]
  · simpa using dupMarked_countP k edges []

/-- Steps where one dependency id (`ghost`) resolves to no step. -/
def danglingDemoSteps : List WorkflowStep :=
  [{ id := "step-1", name := "Receive input", description := none,
     type := .input, dependencies := none },
   { id := "x", name := "Use data", description := none,
     type := .default, dependencies := some [("ghost"), ("step-1")] }]

/-- C10: edge generation performs no existence filtering — it emits one
edge per dependency entry (ids `edge-0`, `edge-1`, ... in step order),
so an unresolvable dependency id still becomes an edge source, which
the validator flags as a dangling edge, even though the level
computation silently drops the same id (level of `x` is 1, computed
from `step-1` alone). -/
theorem generateEdges_no_existence_filtering :
    (∀ steps : List WorkflowStep, generateEdges steps = specEdges steps) ∧
    generateEdges danglingDemoSteps =
      [{ id := "edge-0", source := "ghost", target := "x", animated := some true },
       { id := "edge-1", source := "step-1", target := "x", animated := some true }] ∧
    (validateGraph
      { nodes := danglingDemoSteps.map (fun s => stepToNode s { x := 0, y := 0 })
        edges := generateEdges danglingDemoSteps }).errors =
      [edgeSourceMsg { id := "edge-0", source := "ghost", target := "x", animated := some true }] ∧
    (validateGraph
      { nodes := danglingDemoSteps.map (fun s => stepToNode s { x := 0, y := 0 })
        edges := generateEdges danglingDemoSteps }).isValid = false ∧
    (computeLevelsF 3 danglingDemoSteps).map (alookup ("x")) =
      some (some ((1 : Int) : WithBot Int)) := by
  refine ⟨generateEdges_eq_specEdges, ?_, ?_, ?_, ?_⟩ <;> decide

-- ===========================================================================
-- Injectivity of decimal number printing (hence of step/edge ids)
-- ===========================================================================

/-- Reference decimal digit list of a natural number (most significant
first), used only in proofs. -/
def decDigits (n : Nat) : List Char :=
  if _h : n < 10 then [Nat.digitChar n]
  else decDigits (n / 10) ++ [Nat.digitChar (n % 10)]
termination_by n
decreasing_by exact Nat.div_lt_self (by omega) (by omega)

theorem toDecAux_eq_decDigits :
    ∀ (f n : Nat) (acc : List Char), n < 10 ^ f → f ≠ 0 →
      toDecAux f n acc = decDigits n ++ acc := by
  intro f
  induction f with
  | zero => intro n acc _ h0; exact absurd rfl h0
  | succ f ih =>
    intro n acc hlt _
    by_cases h10 : n / 10 = 0
    · have hn : n < 10 := (Nat.div_eq_zero_iff (by omega)).mp h10
      rw [decDigits]
      simp [toDecAux, h10, hn, Nat.mod_eq_of_lt hn]
    · have hge : 10 ≤ n := by
        rcases Nat.lt_or_ge n 10 with h | h
        · exact absurd (Nat.div_eq_of_lt h) h10
        · exact h
      have hf : f ≠ 0 := by
        rintro rfl
        norm_num at hlt
        omega
      have hdiv : n / 10 < 10 ^ f := by
        have hmul : n < 10 ^ f * 10 := by
          rw [← pow_succ]
          exact hlt
        exact (Nat.div_lt_iff_lt_mul (by omega)).mpr hmul
      have hstep : toDecAux (f + 1) n acc =
          toDecAux f (n / 10) (Nat.digitChar (n % 10) :: acc) := by
        simp [toDecAux, h10]
      have hD : decDigits n = decDigits (n / 10) ++ [Nat.digitChar (n % 10)] := by
        rw [decDigits]
        simp [Nat.not_lt.mpr hge]
      rw [hstep, ih (n / 10) (Nat.digitChar (n % 10) :: acc) hdiv hf, hD,
        List.append_assoc]
      rfl

theorem natToStr_data (n : Nat) : (natToStr n).data = decDigits n := by
  have h1 : n < 10 ^ (n + 1) :=
    lt_of_lt_of_le (Nat.lt_pow_self (by omega) n)
      (Nat.pow_le_pow_right (by omega) (Nat.le_succ n))
  show (⟨toDecAux (n + 1) n []⟩ : String).data = decDigits n
  rw [toDecAux_eq_decDigits (n + 1) n [] h1 (Nat.succ_ne_zero n)]
  simp

/-- Decode a decimal digit list back to a number (proof-side inverse). -/
def decVal (cs : List Char) : Nat :=
  cs.foldl (fun a c => 10 * a + (c.toNat - 48)) 0

theorem digitChar_decode : ∀ d, d < 10 → (Nat.digitChar d).toNat - 48 = d := by
  decide

theorem decVal_decDigits : ∀ n, decVal (decDigits n) = n := by
  intro n
  induction n using Nat.strong_induction_on with
  | _ n ih =>
    by_cases h : n < 10
    · rw [decDigits]
      simp [h, decVal, digitChar_decode n h]
    · rw [decDigits]
      simp only [h, dite_false]
      have hdivlt : n / 10 < n := Nat.div_lt_self (by omega) (by omega)
      have hmod : (Nat.digitChar (n % 10)).toNat - 48 = n % 10 :=
        digitChar_decode (n % 10) (Nat.mod_lt n (by omega))
      simp only [decVal, List.foldl_append, List.foldl_cons, List.foldl_nil]
      have hrec : List.foldl (fun a c => 10 * a + (c.toNat - 48)) 0 (decDigits (n / 10)) = n / 10 :=
        ih (n / 10) hdivlt
      rw [hrec, hmod]
      omega

theorem natToStr_injective : Function.Injective natToStr := by
  intro m n h
  have hdd : decDigits m = decDigits n := by
    rw [← natToStr_data, ← natToStr_data, h]
  have hv := congrArg decVal hdd
  rwa [decVal_decDigits, decVal_decDigits] at hv

theorem stepId_injective : Function.Injective stepId := by
  intro m n h
  simp only [stepId] at h
  have hd : ("step-").data ++ (natToStr m).data = ("step-").data ++ (natToStr n).data := by
    rw [← String.data_append, ← String.data_append, h]
  have h2 := List.append_cancel_left hd
  rw [natToStr_data, natToStr_data] at h2
  have hv := congrArg decVal h2
  rwa [decVal_decDigits, decVal_decDigits] at hv

-- ===========================================================================
-- Association list lemmas
-- ===========================================================================

theorem alookup_append_some {α : Type} (key : String) {l1 : List (String × α)} {v : α}
    (h : alookup key l1 = some v) (l2 : List (String × α)) :
    alookup key (l1 ++ l2) = some v := by
  induction l1 with
  | nil => simp [alookup] at h
  | cons p rest ih =>
    obtain ⟨k, w⟩ := p
    simp only [alookup, List.cons_append] at h ⊢
    by_cases hk : key = k
    · simpa [hk] using h
    · rw [if_neg hk] at h ⊢
      exact ih h

theorem alookup_append_none {α : Type} (key : String) {l1 : List (String × α)}
    (h : alookup key l1 = none) (l2 : List (String × α)) :
    alookup key (l1 ++ l2) = alookup key l2 := by
  induction l1 with
  | nil => simp
  | cons p rest ih =>
    obtain ⟨k, w⟩ := p
    simp only [alookup, List.cons_append] at h ⊢
    by_cases hk : key = k
    · rw [if_pos hk] at h; cases h
    · rw [if_neg hk] at h ⊢
      exact ih h

theorem alookup_eq_none_of_keys {α : Type} (key : String) (l : List (String × α))
    (h : ∀ p ∈ l, p.1 ≠ key) : alookup key l = none := by
  induction l with
  | nil => rfl
  | cons p rest ih =>
    obtain ⟨k, w⟩ := p
    have hk : key ≠ k := fun hc => (h (k, w) (List.mem_cons_self _ _)) hc.symm
    simp only [alookup, if_neg hk]
    exact ih (fun q hq => h q (List.mem_cons_of_mem _ hq))

/-- On a step list with distinct ids, the `stepMap` lookup of a member's
id returns that member. -/
theorem stepMapGet_of_mem {steps : List WorkflowStep}
    (hnd : (steps.map (fun s => s.id)).Nodup) {s : WorkflowStep} (hmem : s ∈ steps) :
    stepMapGet steps s.id = some s := by
  induction steps with
  | nil => cases hmem
  | cons a rest ih =>
    simp only [List.map_cons, List.nodup_cons] at hnd
    obtain ⟨hna, hnr⟩ := hnd
    simp only [stepMapGet, List.map_cons, List.reverse_cons]
    rcases List.mem_cons.mp hmem with rfl | hmem2
    · have hnone : alookup s.id ((rest.map (fun t => (t.id, t))).reverse) = none := by
        apply alookup_eq_none_of_keys
        intro p hp
        rw [List.mem_reverse] at hp
        obtain ⟨t, hts, rfl⟩ := List.mem_map.mp hp
        intro hcon
        exact hna (hcon ▸ List.mem_map_of_mem _ hts)
      rw [alookup_append_none _ hnone]
      simp [alookup]
    · have hr := ih hnr hmem2
      simp only [stepMapGet] at hr
      exact alookup_append_some _ hr _

-- ===========================================================================
-- Level computation on the parser's linear chain
-- ===========================================================================

/-- The `levels` map contents after processing the first `n` steps of a
parser-produced chain: `step-j ↦ j - 1`, newest first. -/
def chainMemo : Nat → LevelMemo
  | 0 => []
  | n + 1 => (stepId (n + 1), ((n : Int) : WithBot Int)) :: chainMemo n

theorem alookup_chainMemo (j : Nat) :
    ∀ i : Nat, alookup (stepId (j + 1)) (chainMemo i) =
      if j + 1 ≤ i then some ((j : Int) : WithBot Int) else none := by
  intro i
  induction i with
  | zero => simp [chainMemo, alookup]
  | succ i ih =>
    simp only [chainMemo, alookup]
    by_cases hj : j = i
    · subst hj
      simp
    · have hne : stepId (j + 1) ≠ stepId (i + 1) := fun hcon =>
        hj (by have := stepId_injective hcon; omega)
      rw [if_neg hne, ih]
      by_cases hle : j + 1 ≤ i
      · rw [if_pos hle, if_pos (by omega)]
      · rw [if_neg hle, if_neg (by omega)]

theorem partsToSteps_length (parts : List String) :
    (partsToSteps parts).length = parts.length := by
  simp [partsToSteps]

theorem partsToSteps_getElem? (parts : List String) (i : Nat) :
    (partsToSteps parts)[i]? = (parts[i]?).map (chainStep parts.length i) := by
  simp only [partsToSteps, List.getElem?_map, List.getElem?_enum]
  cases parts[i]? <;> simp

theorem partsToSteps_map_id (parts : List String) :
    (partsToSteps parts).map (fun s => s.id) =
      (List.range parts.length).map (fun i => stepId (i + 1)) := by
  have h1 : (partsToSteps parts).map (fun s => s.id) =
      (parts.enum).map (fun p => stepId (p.1 + 1)) := by
    simp only [partsToSteps, List.map_map]
    rfl
  have h2 : (parts.enum).map (fun p => stepId (p.1 + 1)) =
      ((parts.enum).map Prod.fst).map (fun i => stepId (i + 1)) := by
    rw [List.map_map]
    rfl
  rw [h1, h2, List.enum_map_fst]

theorem partsToSteps_id_nodup (parts : List String) :
    ((partsToSteps parts).map (fun s => s.id)).Nodup := by
  rw [partsToSteps_map_id]
  refine (List.nodup_range _).map ?_
  intro a b h
  have := stepId_injective h
  omega

/-- One chain step: with the previous steps memoised, computing the
level of `step-(i+1)` succeeds with two units of fuel and extends the
memo by one entry. -/
theorem getLevelF_chain (parts : List String) (fuel i : Nat) (hi : i < parts.length) :
    getLevelF (fuel + 2) (partsToSteps parts) (chainMemo i) (stepId (i + 1)) =
      some (((i : Int) : WithBot Int), chainMemo (i + 1)) := by
  have hmem0 : alookup (stepId (i + 1)) (chainMemo i) = none := by
    rw [alookup_chainMemo, if_neg (by omega)]
  obtain ⟨part, hpart⟩ : ∃ part, parts[i]? = some part :=
    ⟨parts[i], List.getElem?_eq_getElem hi⟩
  have hget : (partsToSteps parts)[i]? = some (chainStep parts.length i part) := by
    rw [partsToSteps_getElem?, hpart]
    rfl
  have hmem : chainStep parts.length i part ∈ partsToSteps parts :=
    List.getElem?_mem hget
  have hfind : stepMapGet (partsToSteps parts) (stepId (i + 1)) =
      some (chainStep parts.length i part) :=
    stepMapGet_of_mem (partsToSteps_id_nodup parts) hmem
  show getLevelF ((fuel + 1) + 1) _ _ _ = _
  rw [getLevelF]
  simp only [hmem0, hfind]
  cases i with
  | zero =>
    rw [show (chainStep parts.length 0 part).dependencies = none from rfl]
    simp [chainMemo]
  | succ i' =>
    have hdeps : (chainStep parts.length (i' + 1) part).dependencies =
        some [stepId (i' + 1)] := by
      simp [chainStep]
    simp only [hdeps]
    have hresolve : stepMapGet (partsToSteps parts) (stepId (i' + 1)) ≠ none := by
      obtain ⟨p2, hp2⟩ : ∃ p2, parts[i']? = some p2 :=
        ⟨parts[i'], List.getElem?_eq_getElem (by omega)⟩
      have hg2 : (partsToSteps parts)[i']? = some (chainStep parts.length i' p2) := by
        rw [partsToSteps_getElem?, hp2]
        rfl
      have hm2 := List.getElem?_mem hg2
      have hsm : stepMapGet (partsToSteps parts) (stepId (i' + 1)) =
          some (chainStep parts.length i' p2) :=
        stepMapGet_of_mem (partsToSteps_id_nodup parts) hm2
      rw [hsm]
      exact Option.some_ne_none _
    have hhit : alookup (stepId (i' + 1)) (chainMemo (i' + 1)) =
        some ((i' : Int) : WithBot Int) := by
      rw [alookup_chainMemo, if_pos (by omega)]
    have hinner : getLevelF (fuel + 1) (partsToSteps parts) (chainMemo (i' + 1))
        (stepId (i' + 1)) = some (((i' : Int) : WithBot Int), chainMemo (i' + 1)) := by
      rw [getLevelF, hhit]
    rw [if_neg (by simp)]
    have hfilter : ([stepId (i' + 1)].filter
        (fun d => (stepMapGet (partsToSteps parts) d).isSome)) = [stepId (i' + 1)] := by
      simp only [List.filter]
      cases hc : stepMapGet (partsToSteps parts) (stepId (i' + 1)) with
      | none => exact absurd hc hresolve
      | some w => rfl
    rw [hfilter]
    simp only [List.foldl_cons, List.foldl_nil, hinner]
    have hlvl : (List.foldr max ⊥ [((i' : Int) : WithBot Int)]) + 1 =
        (((i' + 1 : Nat) : Int) : WithBot Int) := by
      simp only [List.foldr]
      rw [max_eq_left bot_le]
      rw [show ((1 : WithBot Int)) = (((1 : Int) : WithBot Int)) from rfl]
      rw [← WithBot.coe_add]
      push_cast
      rfl
    simp only [List.nil_append, hlvl]
    rfl

theorem computeLevelsF_chain_aux (parts : List String) (fuel : Nat) :
    ∀ (l : List WorkflowStep) (i : Nat), (partsToSteps parts).drop i = l →
      i ≤ parts.length →
      l.foldl (fun acc s =>
        match acc with
        | none => none
        | some m =>
          match getLevelF (fuel + 2) (partsToSteps parts) m s.id with
          | none => none
          | some (_, m2) => some m2) (some (chainMemo i)) =
        some (chainMemo parts.length) := by
  intro l
  induction l with
  | nil =>
    intro i hdrop hle
    have hlen : parts.length ≤ i := by
      have := congrArg List.length hdrop
      simp only [List.length_drop, List.length_nil, partsToSteps_length] at this
      omega
    have : i = parts.length := le_antisymm hle hlen
    subst this
    rfl
  | cons s rest ih =>
    intro i hdrop hle
    have hilen : i < (partsToSteps parts).length := by
      by_contra hge
      rw [List.drop_eq_nil_of_le (by omega)] at hdrop
      cases hdrop
    have hi2 : i < parts.length := by
      rw [partsToSteps_length parts] at hilen
      exact hilen
    have h0 : ((partsToSteps parts).drop i)[0]? = some s := by
      rw [hdrop]
      simp
    rw [List.getElem?_drop] at h0
    obtain ⟨part, hpart⟩ : ∃ p, parts[i]? = some p :=
      ⟨parts[i], List.getElem?_eq_getElem hi2⟩
    have hs : s = chainStep parts.length i part := by
      have hg := partsToSteps_getElem? parts i
      rw [hpart] at hg
      simp only [Nat.add_zero] at h0
      rw [h0] at hg
      exact Option.some.inj hg
    have hrest : (partsToSteps parts).drop (i + 1) = rest := by
      have hdd : List.drop 1 ((partsToSteps parts).drop i) =
          (partsToSteps parts).drop (i + 1) := by
        rw [List.drop_drop]
      rw [hdrop] at hdd
      simpa using hdd.symm
    have hid : s.id = stepId (i + 1) := by
      rw [hs]
      rfl
    have hstep := getLevelF_chain parts fuel i hi2
    simp only [List.foldl_cons]
    rw [hid, hstep]
    exact ih (i + 1) hrest (by omega)

/-- Computing levels for all steps of a parser-produced chain succeeds
(with any fuel at least 2) and yields exactly the chain memo. -/
theorem computeLevelsF_chain (parts : List String) (fuel : Nat) :
    computeLevelsF (fuel + 2) (partsToSteps parts) = some (chainMemo parts.length) :=
  computeLevelsF_chain_aux parts fuel (partsToSteps parts) 0 rfl (by omega)

-- ===========================================================================
-- Coordinate layout (`calculateNodePositions` after level computation)
-- ===========================================================================

/-- Test `options.direction === 'LR' || options.direction === 'RL'`. -/
def layoutIsHorizontal (d : FlowDirection) : Bool :=
  d = FlowDirection.LR || d = FlowDirection.RL

/-- Test `options.direction === 'BT' || options.direction === 'RL'`. -/
def layoutIsReversed (d : FlowDirection) : Bool :=
  d = FlowDirection.BT || d = FlowDirection.RL

/-- One iteration of the grouping loop: append the step to its level's
group (creating the group at the end on first occurrence), preserving
the JS `Map` insertion order of keys. -/
def addToGroups (gs : List (Int × List WorkflowStep)) (l : Int) (s : WorkflowStep) :
    List (Int × List WorkflowStep) :=
  match gs with
  | [] => [(l, [s])]
  | (k, grp) :: rest =>
    if k = l then (k, grp ++ [s]) :: rest else (k, grp) :: addToGroups rest l s

/-- Grouping `levelGroups`: group steps by level, keys in first-occurrence order,
steps inside a group in original order. -/
def buildGroups (steps : List WorkflowStep) (lvl : String → Int) :
    List (Int × List WorkflowStep) :=
  steps.foldl (fun gs s => addToGroups gs (lvl s.id) s) []

/-- The position assigned to the step at (level `l`, sibling index
`idx`) in a group of `len` steps, out of `groupCount` level groups. -/
def posFor (lo : LayoutConfig) (groupCount : Nat) (l : Int) (idx : Nat) (len : Nat) :
    NodePosition :=
  let adjusted : ℚ :=
    if layoutIsReversed lo.direction then ((groupCount : ℚ) - 1 - (l : ℚ)) else (l : ℚ)
  let offset : ℚ := ((idx : ℚ) - ((len : ℚ) - 1) / 2) * lo.nodeSpacing
  if layoutIsHorizontal lo.direction then
    { x := lo.startPosition.x + adjusted * lo.levelSpacing
      y := lo.startPosition.y + offset }
  else
    { x := lo.startPosition.x + offset
      y := lo.startPosition.y + adjusted * lo.levelSpacing }

/-- The position-assignment loops of `calculateNodePositions` (lines
85-106): iterate the level groups and set each step's position. -/
def layoutCore (steps : List WorkflowStep) (lvl : String → Int) (lo : LayoutConfig) :
    List (String × NodePosition) :=
  let gs := buildGroups steps lvl
  gs.foldl (fun pm g =>
    g.2.enum.foldl (fun pm2 p =>
      (p.2.id, posFor lo gs.length g.1 p.1 g.2.length) :: pm2) pm) []

/-- The grouping and positioning phase, given the computed `levels` map.
`levels.get(step.id) || 0` maps a missing entry (and `0`) to `0` and
keeps `-Infinity` (which is truthy in JS). The computation is guarded:
if any step's level is `-Infinity` (`⊥`, the C1 bug) the resulting JS
coordinates would be non-finite floats, which this rational embedding
does not model, so the guard returns `none` there. -/
def positionsOf (steps : List WorkflowStep) (memo : LevelMemo) (lo : LayoutConfig) :
    Option (List (String × NodePosition)) :=
  if _h : ∀ s ∈ steps, (alookup s.id memo).getD 0 ≠ (⊥ : WithBot Int) then
    some (layoutCore steps (fun sid => ((alookup sid memo).getD 0).unbot' 0) lo)
  else none

/-- Function `calculateNodePositions`: compute levels for all steps, then group
and position. -/
def calculateNodePositionsF (fuel : Nat) (steps : List WorkflowStep) (lo : LayoutConfig) :
    Option (List (String × NodePosition)) :=
  match computeLevelsF fuel steps with
  | none => none
  | some memo => positionsOf steps memo lo

-- ===========================================================================
-- `workflowToGraph` and `textToGraph`
-- ===========================================================================

/-- Convert a ParsedWorkflow to a GraphStructure: positions, then nodes
(falling back to the start position when a position is missing), then
edges. `none` propagates fuel exhaustion of the level recursion. -/
def workflowToGraphF (fuel : Nat) (workflow : ParsedWorkflow)
    (options : Option GraphLayoutOptions) : Option GraphStructure :=
  let layoutOptions := resolveOptions options
  match calculateNodePositionsF fuel workflow.steps layoutOptions with
  | none => none
  | some positions =>
    some { nodes := workflow.steps.map (fun step =>
             stepToNode step ((alookup step.id positions).getD layoutOptions.startPosition))
           edges := generateEdges workflow.steps }

/-- Function `textToGraph`: the main entry point. The emptiness check
`!text || text.trim().length === 0` is equivalent to the trimmed text
being empty (the empty string is falsy and trims to itself). -/
def textToGraphF (fuel : Nat) (text : String) (options : Option GraphLayoutOptions) :
    Option TextToGraphResult :=
  if jsTrim text = ("") then
    some { success := false, graph := none,
           error := some ("Empty text input"), rawParsed := none }
  else
    let parsedWorkflow := parseSimpleText text
    if parsedWorkflow.steps.length = 0 then
      some { success := false, graph := none,
             error := some ("Could not parse any workflow steps from the text"),
             rawParsed := none }
    else
      match workflowToGraphF fuel parsedWorkflow options with
      | none => none
      | some graph =>
        let validation := validateGraph graph
        if validation.isValid = false then
          some { success := false, graph := none,
                 error := some (String.intercalate ("; ") validation.errors),
                 rawParsed := some parsedWorkflow }
        else
          some { success := true, graph := some graph, error := none,
                 rawParsed := some parsedWorkflow }

/-- C7: empty/whitespace-only input fails with "Empty text input"; a
non-empty input whose detected format leaves zero surviving segments
fails with "Could not parse any workflow steps from the text"; both
failures carry no graph (and no parse payload), and the two error
strings are distinguishable and non-empty. -/
theorem textToGraph_failure_taxonomy :
    (∀ (text : String) (options : Option GraphLayoutOptions) (fuel : Nat),
      jsTrim text = ("") →
      textToGraphF fuel text options =
        some { success := false, graph := none,
               error := some ("Empty text input"), rawParsed := none }) ∧
    (∀ (text : String) (options : Option GraphLayoutOptions) (fuel : Nat),
      jsTrim text ≠ ("") →
      (parseSimpleText text).steps.length = 0 →
      textToGraphF fuel text options =
        some { success := false, graph := none,
               error := some ("Could not parse any workflow steps from the text"),
               rawParsed := none }) ∧
    ("Empty text input" : String) ≠ ("Could not parse any workflow steps from the text") ∧
    ("Empty text input" : String) ≠ ("") ∧
    ("Could not parse any workflow steps from the text" : String) ≠ ("") := by
  refine ⟨?_, ?_, by decide, by decide, by decide⟩
  · intro text options fuel h
    rw [textToGraphF, if_pos h]
  · intro text options fuel h h0
    rw [textToGraphF, if_neg h]
    simp only [h0, if_pos]

/-- Witness for C7 at the claim's concrete inputs. -/
theorem textToGraph_failure_taxonomy_witness :
    textToGraphF 2 ("") none =
      some { success := false, graph := none,
             error := some ("Empty text input"), rawParsed := none } ∧
    textToGraphF 2 ("   ") none =
      some { success := false, graph := none,
             error := some ("Empty text input"), rawParsed := none } ∧
    textToGraphF 2 ("->") none =
      some { success := false, graph := none,
             error := some ("Could not parse any workflow steps from the text"),
             rawParsed := none } :=
  ⟨textToGraph_failure_taxonomy.1 ("") none 2 (by decide),
   textToGraph_failure_taxonomy.1 ("   ") none 2 (by decide),
   textToGraph_failure_taxonomy.2.1 ("->") none 2 (by decide) (by decide)⟩

-- ===========================================================================
-- The pipeline on parser output (chain workflows)
-- ===========================================================================

theorem flatMap_map' {α β γ : Type} (f : α → β) (g : β → List γ) (l : List α) :
    (l.map f).flatMap g = l.flatMap (fun a => g (f a)) := by
  induction l with
  | nil => rfl
  | cons a rest ih => simp [ih]

theorem partsToSteps_mem_id {P : List String} {s : WorkflowStep}
    (hs : s ∈ partsToSteps P) :
    ∃ i, i < P.length ∧ s.id = stepId (i + 1) := by
  obtain ⟨i, hlt, hEl⟩ := List.getElem_of_mem hs
  have h1 : (partsToSteps P)[i]? = some s := by
    rw [List.getElem?_eq_getElem hlt, hEl]
  rw [partsToSteps_getElem?] at h1
  obtain ⟨p, _, hps⟩ := Option.map_eq_some'.mp h1
  refine ⟨i, ?_, ?_⟩
  · rw [partsToSteps_length] at hlt
    exact hlt
  · rw [← hps]
    rfl

/-- On a chain workflow, positions are computed successfully (all
levels are finite) and the graph is assembled from them. -/
theorem workflowToGraphF_chain (P : List String) (options : Option GraphLayoutOptions)
    (fuel : Nat) :
    ∃ (g : GraphStructure) (pm : List (String × NodePosition)),
      workflowToGraphF (fuel + 2)
          { title := none, description := none, steps := partsToSteps P } options =
        some g ∧
      g.nodes = (partsToSteps P).map (fun step =>
        stepToNode step ((alookup step.id pm).getD (resolveOptions options).startPosition)) ∧
      g.edges = generateEdges (partsToSteps P) := by
  have hguard : ∀ s ∈ partsToSteps P,
      (alookup s.id (chainMemo P.length)).getD 0 ≠ (⊥ : WithBot Int) := by
    intro s hs
    obtain ⟨i, hi, hid⟩ := partsToSteps_mem_id hs
    rw [hid, alookup_chainMemo, if_pos (by omega)]
    simp
  refine ⟨⟨(partsToSteps P).map (fun step =>
      stepToNode step ((alookup step.id (layoutCore (partsToSteps P)
        (fun sid => ((alookup sid (chainMemo P.length)).getD 0).unbot' 0)
        (resolveOptions options))).getD (resolveOptions options).startPosition)),
    generateEdges (partsToSteps P)⟩,
    layoutCore (partsToSteps P)
      (fun sid => ((alookup sid (chainMemo P.length)).getD 0).unbot' 0)
      (resolveOptions options), ?_, rfl, rfl⟩
  simp only [workflowToGraphF]
  rw [calculateNodePositionsF, computeLevelsF_chain]
  simp only [positionsOf]
  rw [dif_pos hguard]

/-- The dependency pairs contributed by segments numbered from `k ≥ 1`:
each depends on its predecessor. -/
theorem depPairs_enumFrom (total : Nat) :
    ∀ (l : List String) (k : Nat), 1 ≤ k →
      (List.enumFrom k l).flatMap (fun p =>
        (((chainStep total p.1 p.2).dependencies).getD []).map
          (fun d => (d, (chainStep total p.1 p.2).id))) =
      (List.range l.length).map (fun j => (stepId (k + j), stepId (k + j + 1))) := by
  intro l
  induction l with
  | nil => intro k _; rfl
  | cons a rest ih =>
    intro k hk
    rw [List.enumFrom_cons, List.flatMap_cons]
    have hbody : (((chainStep total k a).dependencies).getD []).map
        (fun d => (d, (chainStep total k a).id)) = [(stepId k, stepId (k + 1))] := by
      show (((if k > 0 then some [stepId k] else none)).getD []).map
        (fun d => (d, stepId (k + 1))) = [(stepId k, stepId (k + 1))]
      rw [if_pos (by omega)]
      rfl
    rw [hbody, ih (k + 1) (by omega)]
    rw [List.length_cons, List.range_succ_eq_map, List.map_cons, List.map_map]
    refine List.cons_eq_cons.mpr ⟨?_, ?_⟩
    · norm_num
    · apply List.map_congr_left
      intro j hj
      show (stepId (k + 1 + j), stepId (k + 1 + j + 1)) =
          (stepId (k + (j + 1)), stepId (k + (j + 1) + 1))
      rw [show k + 1 + j = k + (j + 1) from by omega]

theorem depPairs_chain (P : List String) :
    depPairs (partsToSteps P) =
      (List.range (P.length - 1)).map (fun k => (stepId (k + 1), stepId (k + 2))) := by
  rw [depPairs, partsToSteps, flatMap_map']
  cases P with
  | nil => rfl
  | cons a rest =>
    rw [List.enum_cons, List.flatMap_cons]
    have hbody0 : (((chainStep (a :: rest).length 0 a).dependencies).getD []).map
        (fun d => (d, (chainStep (a :: rest).length 0 a).id)) = [] := rfl
    rw [hbody0, List.nil_append, depPairs_enumFrom (a :: rest).length rest 1 (by omega)]
    simp only [List.length_cons, Nat.add_sub_cancel]
    apply List.map_congr_left
    intro j hj
    show (stepId (1 + j), stepId (1 + j + 1)) = (stepId (j + 1), stepId (j + 2))
    rw [show 1 + j = j + 1 from by omega, show j + 1 + 1 = j + 2 from by omega]

theorem enum_map_mk {α β : Type} (h : Nat → α) (F : Nat × α → β) :
    ∀ m : Nat, ((List.range m).map h).enum.map F =
      (List.range m).map (fun i => F (i, h i)) := by
  intro m
  induction m with
  | zero => rfl
  | succ m ih =>
    rw [List.range_succ, List.map_append, List.enum_append, List.map_append, ih]
    rw [List.map_append]
    congr 1
    simp

theorem specEdges_chain (P : List String) :
    specEdges (partsToSteps P) =
      (List.range (P.length - 1)).map (fun i =>
        { id := edgeId i, source := stepId (i + 1), target := stepId (i + 2),
          animated := some true }) := by
  rw [specEdges, depPairs_chain, enum_map_mk]
  rfl

/-- C5: for every input, the pipeline succeeds on the parsed chain and
produces exactly one node per surviving segment (ids `step-1` ...
`step-n` in segment order) and `n - 1` edges forming the linear chain
`step-1 -> step-2 -> ... -> step-n`. -/
theorem pipeline_step_count_invariant (text : String)
    (options : Option GraphLayoutOptions) (fuel : Nat)
    (_h1 : 1 ≤ (parseSimpleText text).steps.length) :
    ∃ g : GraphStructure,
      workflowToGraphF (fuel + 2) (parseSimpleText text) options = some g ∧
      g.nodes.length = (parseSimpleText text).steps.length ∧
      g.nodes.map (fun nd => nd.id) =
        (List.range (parseSimpleText text).steps.length).map (fun i => stepId (i + 1)) ∧
      g.edges = (List.range ((parseSimpleText text).steps.length - 1)).map (fun i =>
        { id := edgeId i, source := stepId (i + 1), target := stepId (i + 2),
          animated := some true }) := by
  obtain ⟨P, hP⟩ : ∃ P : List String, parseSimpleText text =
      { title := none, description := none, steps := partsToSteps P } := ⟨_, rfl⟩
  have hPs : (parseSimpleText text).steps = partsToSteps P := by rw [hP]
  rw [hPs, hP, partsToSteps_length]
  obtain ⟨g, pm, hwg, hgn, hge⟩ := workflowToGraphF_chain P options fuel
  refine ⟨g, hwg, ?_, ?_, ?_⟩
  · rw [hgn]
    simp [partsToSteps_length]
  · rw [hgn]
    simp only [List.map_map]
    exact partsToSteps_map_id P
  · rw [hge]
    exact (generateEdges_eq_specEdges (partsToSteps P)).trans (specEdges_chain P)

/-- Witness for C5 on `"Start -> Process -> End"` (3 segments). -/
theorem pipeline_step_count_invariant_witness :
    ∃ g : GraphStructure,
      workflowToGraphF 2 (parseSimpleText ("Start -> Process -> End")) none = some g ∧
      g.nodes.length = (parseSimpleText ("Start -> Process -> End")).steps.length ∧
      g.nodes.map (fun nd => nd.id) =
        (List.range (parseSimpleText ("Start -> Process -> End")).steps.length).map
          (fun i => stepId (i + 1)) ∧
      g.edges = (List.range
          ((parseSimpleText ("Start -> Process -> End")).steps.length - 1)).map (fun i =>
        { id := edgeId i, source := stepId (i + 1), target := stepId (i + 2),
          animated := some true }) :=
  pipeline_step_count_invariant ("Start -> Process -> End") none 0 (by decide)

theorem endpointErrors_eq_nil (ids : List String) (edges : List GraphEdge)
    (h : ∀ e ∈ edges, e.source ∈ ids ∧ e.target ∈ ids) :
    edges.flatMap (fun e =>
      (if e.source ∈ ids then [] else [edgeSourceMsg e]) ++
      (if e.target ∈ ids then [] else [edgeTargetMsg e])) = [] := by
  induction edges with
  | nil => rfl
  | cons e rest ih =>
    rw [List.flatMap_cons]
    obtain ⟨h1, h2⟩ := h e (List.mem_cons_self _ _)
    rw [if_pos h1, if_pos h2, ih (fun e' he' => h e' (List.mem_cons_of_mem _ he'))]
    rfl

/-- Validation of a linear-chain graph: distinct ids, resolving
endpoints, no errors. -/
theorem validateGraph_chain (g : GraphStructure) (n : Nat) (hn : 1 ≤ n)
    (hlen : g.nodes.length = n)
    (hids : g.nodes.map (fun nd => nd.id) = (List.range n).map (fun i => stepId (i + 1)))
    (hedges : g.edges = (List.range (n - 1)).map (fun i =>
      { id := edgeId i, source := stepId (i + 1), target := stepId (i + 2),
        animated := some true })) :
    (validateGraph g).errors = [] ∧ (validateGraph g).isValid = true ∧
      (g.nodes.map (fun nd => nd.id)).Nodup := by
  have hnd : (g.nodes.map (fun nd => nd.id)).Nodup := by
    rw [hids]
    refine (List.nodup_range _).map ?_
    intro a b hab
    have := stepId_injective hab
    omega
  have herr : (validateGraph g).errors = [] := by
    simp only [validateGraph]
    have c1 : ¬(g.nodes.length = 0) := by omega
    have c2 : ¬((g.nodes.map (fun nd => nd.id)).dedup.length ≠ g.nodes.length) := by
      rw [List.Nodup.dedup hnd, List.length_map]
      omega
    have c3 : g.edges.flatMap (fun e =>
        (if e.source ∈ g.nodes.map (fun nd => nd.id) then [] else [edgeSourceMsg e]) ++
        (if e.target ∈ g.nodes.map (fun nd => nd.id) then [] else [edgeTargetMsg e])) = [] := by
      apply endpointErrors_eq_nil
      intro e he
      rw [hedges] at he
      obtain ⟨i, hir, rfl⟩ := List.mem_map.mp he
      rw [List.mem_range] at hir
      constructor
      · rw [hids]
        exact List.mem_map.mpr ⟨i, List.mem_range.mpr (by omega), rfl⟩
      · rw [hids]
        exact List.mem_map.mpr ⟨i + 1, List.mem_range.mpr (by omega), rfl⟩
    rw [if_neg c1, if_neg c2, c3]
    rfl
  have hval : (validateGraph g).isValid = true := by
    have hproj : (validateGraph g).isValid = ((validateGraph g).errors).isEmpty := rfl
    rw [hproj, herr]
    rfl
  exact ⟨herr, hval, hnd⟩

/-- C6: the graph the pipeline assembles from any parse with at least
one step passes validation — node ids are pairwise distinct, every
edge endpoint resolves to a node, the validator reports zero errors
and `isValid = true` — so `textToGraph` returns the successful result
and its validation-failure branch is unreachable on pipeline-generated
graphs. -/
theorem pipeline_graph_passes_validation (text : String)
    (options : Option GraphLayoutOptions) (fuel : Nat)
    (h1 : (parseSimpleText text).steps ≠ []) :
    ∃ g : GraphStructure,
      workflowToGraphF (fuel + 2) (parseSimpleText text) options = some g ∧
      (validateGraph g).isValid = true ∧
      (validateGraph g).errors = [] ∧
      (g.nodes.map (fun nd => nd.id)).Nodup ∧
      (jsTrim text ≠ ("") →
        textToGraphF (fuel + 2) text options =
          some { success := true, graph := some g, error := none,
                 rawParsed := some (parseSimpleText text) }) := by
  obtain ⟨P, hP⟩ : ∃ P : List String, parseSimpleText text =
      { title := none, description := none, steps := partsToSteps P } := ⟨_, rfl⟩
  have hPs : (parseSimpleText text).steps = partsToSteps P := by rw [hP]
  have h1P : partsToSteps P ≠ [] := by
    rw [← hPs]
    exact h1
  have hlen : 1 ≤ P.length := by
    rcases P with _ | ⟨p, rest⟩
    · exact absurd rfl h1P
    · simp
  obtain ⟨g, pm, hwg, hgn, hge⟩ := workflowToGraphF_chain P options fuel
  have hwfull : workflowToGraphF (fuel + 2) (parseSimpleText text) options = some g := by
    rw [hP]
    exact hwg
  have hids : g.nodes.map (fun nd => nd.id) =
      (List.range P.length).map (fun i => stepId (i + 1)) := by
    rw [hgn]
    simp only [List.map_map]
    exact partsToSteps_map_id P
  have hlenN : g.nodes.length = P.length := by
    rw [hgn]
    simp [partsToSteps_length]
  have hedges : g.edges = (List.range (P.length - 1)).map (fun i =>
      { id := edgeId i, source := stepId (i + 1), target := stepId (i + 2),
        animated := some true }) := by
    rw [hge]
    exact (generateEdges_eq_specEdges (partsToSteps P)).trans (specEdges_chain P)
  obtain ⟨herr, hval, hnd⟩ := validateGraph_chain g P.length hlen hlenN hids hedges
  refine ⟨g, hwfull, hval, herr, hnd, ?_⟩
  intro htrim
  have hlen0 : ¬((parseSimpleText text).steps.length = 0) := by
    rw [hPs]
    simp only [List.length_eq_zero]
    exact h1P
  rw [textToGraphF, if_neg htrim]
  simp only [hlen0, if_neg, ite_false, hwfull, hval]
  rfl

/-- Witness for C6 on `"a -> b"`. -/
theorem pipeline_graph_passes_validation_witness :
    ∃ g : GraphStructure,
      workflowToGraphF 2 (parseSimpleText ("a -> b")) none = some g ∧
      (validateGraph g).isValid = true ∧
      (validateGraph g).errors = [] ∧
      (g.nodes.map (fun nd => nd.id)).Nodup ∧
      (jsTrim ("a -> b") ≠ ("") →
        textToGraphF 2 ("a -> b") none =
          some { success := true, graph := some g, error := none,
                 rawParsed := some (parseSimpleText ("a -> b")) }) :=
  pipeline_graph_passes_validation ("a -> b") none 0 (by decide)

-- ===========================================================================
-- Layout refinement: groups are filters, positions follow the formula
-- ===========================================================================

theorem foldl_cons_acc {α β : Type} (f : α → β) :
    ∀ (l : List α) (acc : List β),
      l.foldl (fun acc2 x => f x :: acc2) acc = (l.map f).reverse ++ acc := by
  intro l
  induction l with
  | nil => intro acc; rfl
  | cons a rest ih =>
    intro acc
    rw [List.foldl_cons, ih, List.map_cons, List.reverse_cons, List.append_assoc]
    rfl

theorem addToGroups_not_mem (l : Int) (s : WorkflowStep) :
    ∀ gs : List (Int × List WorkflowStep), l ∉ gs.map Prod.fst →
      addToGroups gs l s = gs ++ [(l, [s])] := by
  intro gs
  induction gs with
  | nil => intro _; rfl
  | cons pr rest ih =>
    intro h
    obtain ⟨k, grp⟩ := pr
    simp only [List.map_cons, List.mem_cons, not_or] at h
    rw [addToGroups, if_neg (fun hc => h.1 hc.symm), ih h.2]
    rfl

theorem addToGroups_mem (l : Int) (s : WorkflowStep) :
    ∀ gs : List (Int × List WorkflowStep), (gs.map Prod.fst).Nodup →
      l ∈ gs.map Prod.fst →
      addToGroups gs l s =
        gs.map (fun pr => if pr.1 = l then (pr.1, pr.2 ++ [s]) else pr) := by
  intro gs
  induction gs with
  | nil => intro _ h; simp at h
  | cons pr rest ih =>
    intro hnd h
    obtain ⟨k, grp⟩ := pr
    simp only [List.map_cons, List.nodup_cons] at hnd
    by_cases hk : k = l
    · subst hk
      rw [addToGroups, if_pos rfl]
      have hmapid : rest.map (fun pr => if pr.1 = k then (pr.1, pr.2 ++ [s]) else pr) =
          rest := by
        have := List.map_congr_left (l := rest)
          (f := fun pr => if pr.1 = k then (pr.1, pr.2 ++ [s]) else pr) (g := id)
          (fun pr hpr => by
            show (if pr.1 = k then (pr.1, pr.2 ++ [s]) else pr) = id pr
            rw [if_neg (fun hc : pr.1 = k =>
              hnd.1 (hc ▸ List.mem_map_of_mem Prod.fst hpr))]
            rfl)
        rw [this, List.map_id]
      rw [List.map_cons, if_pos rfl, hmapid]
    · have hl : l ∈ rest.map Prod.fst := by
        rcases List.mem_cons.mp h with h1 | h1
        · exact absurd h1.symm hk
        · exact h1
      rw [addToGroups, if_neg hk, ih hnd.2 hl, List.map_cons, if_neg hk]

/-- Invariant of the grouping fold after processing `done`. -/
def groupsInv (lvl : String → Int) (done : List WorkflowStep)
    (gs : List (Int × List WorkflowStep)) : Prop :=
  (gs.map Prod.fst).Nodup ∧
  (∀ pr ∈ gs, pr.2 = done.filter (fun t => lvl t.id = pr.1)) ∧
  (∀ l : Int, l ∈ gs.map Prod.fst ↔ l ∈ done.map (fun t => lvl t.id))

theorem groupsInv_step (lvl : String → Int) (done : List WorkflowStep)
    (gs : List (Int × List WorkflowStep)) (s : WorkflowStep)
    (h : groupsInv lvl done gs) :
    groupsInv lvl (done ++ [s]) (addToGroups gs (lvl s.id) s) := by
  obtain ⟨hnd, hgrp, hiff⟩ := h
  by_cases hmem : lvl s.id ∈ gs.map Prod.fst
  · rw [addToGroups_mem _ _ _ hnd hmem]
    refine ⟨?_, ?_, ?_⟩
    · have hkeys : (gs.map (fun pr => if pr.1 = lvl s.id then (pr.1, pr.2 ++ [s]) else pr)).map
          Prod.fst = gs.map Prod.fst := by
        rw [List.map_map]
        apply List.map_congr_left
        intro pr _
        by_cases hc : pr.1 = lvl s.id <;> simp [hc]
      rw [hkeys]
      exact hnd
    · intro pr' hpr'
      obtain ⟨pr, hpr, hf⟩ := List.mem_map.mp hpr'
      by_cases hc : pr.1 = lvl s.id
      · rw [if_pos hc] at hf
        rw [← hf]
        simp only [List.filter_append, hgrp pr hpr]
        congr 1
        simp only [List.filter]
        rw [hc]
        simp
      · rw [if_neg hc] at hf
        rw [← hf, hgrp pr hpr]
        simp only [List.filter_append]
        have hne : ¬(lvl s.id = pr.1) := fun hcc => hc hcc.symm
        have : List.filter (fun t => decide (lvl t.id = pr.1)) [s] = [] := by
          simp [hne]
        rw [this, List.append_nil]
    · intro l
      have hkeys : (gs.map (fun pr => if pr.1 = lvl s.id then (pr.1, pr.2 ++ [s]) else pr)).map
          Prod.fst = gs.map Prod.fst := by
        rw [List.map_map]
        apply List.map_congr_left
        intro pr _
        by_cases hc : pr.1 = lvl s.id <;> simp [hc]
      rw [hkeys, hiff l, List.map_append]
      constructor
      · intro hl
        exact List.mem_append_left _ hl
      · intro hl
        rcases List.mem_append.mp hl with hl | hl
        · exact hl
        · simp only [List.map_cons, List.map_nil, List.mem_singleton] at hl
          rw [hl, ← hiff (lvl s.id)] at *
          exact hmem
  · rw [addToGroups_not_mem _ _ _ hmem]
    refine ⟨?_, ?_, ?_⟩
    · rw [List.map_append]
      simp only [List.map_cons, List.map_nil]
      rw [List.nodup_append]
      refine ⟨hnd, List.nodup_singleton _, ?_⟩
      intro a ha hb
      simp only [List.mem_singleton] at hb
      rw [hb] at ha
      exact hmem ha
    · intro pr hpr
      rcases List.mem_append.mp hpr with hpr1 | hpr1
      · rw [hgrp pr hpr1]
        simp only [List.filter_append]
        have : List.filter (fun t => decide (lvl t.id = pr.1)) [s] = [] := by
          have hne : lvl s.id ≠ pr.1 := by
            intro hc
            exact hmem (hc ▸ List.mem_map_of_mem Prod.fst hpr1)
          simp [hne]
        rw [this, List.append_nil]
      · simp only [List.mem_singleton] at hpr1
        rw [hpr1]
        simp only [List.filter_append]
        have h1 : done.filter (fun t => lvl t.id = lvl s.id) = [] := by
          apply List.filter_eq_nil_iff.mpr
          intro t ht
          simp only [decide_eq_true_eq]
          intro hc
          exact hmem ((hiff (lvl s.id)).mpr (hc ▸ List.mem_map_of_mem _ ht))
        rw [h1, List.nil_append]
        simp
    · intro l
      rw [List.map_append, List.map_append]
      simp only [List.map_cons, List.map_nil]
      constructor
      · intro hl
        rcases List.mem_append.mp hl with hl | hl
        · exact List.mem_append_left _ ((hiff l).mp hl)
        · exact List.mem_append_right _ hl
      · intro hl
        rcases List.mem_append.mp hl with hl | hl
        · exact List.mem_append_left _ ((hiff l).mpr hl)
        · exact List.mem_append_right _ hl

theorem buildGroups_inv_aux (lvl : String → Int) :
    ∀ (rest done : List WorkflowStep) (gs : List (Int × List WorkflowStep)),
      groupsInv lvl done gs →
      groupsInv lvl (done ++ rest)
        (rest.foldl (fun gs s => addToGroups gs (lvl s.id) s) gs) := by
  intro rest
  induction rest with
  | nil => intro done gs h; simpa using h
  | cons s rest ih =>
    intro done gs h
    rw [List.foldl_cons]
    have := ih (done ++ [s]) _ (groupsInv_step lvl done gs s h)
    simpa [List.append_assoc] using this

/-- The grouping loop produces: distinct keys, each group the filter of
the steps at its level, and keys exactly the occurring levels. -/
theorem buildGroups_inv (steps : List WorkflowStep) (lvl : String → Int) :
    groupsInv lvl steps (buildGroups steps lvl) := by
  have := buildGroups_inv_aux lvl steps [] [] ⟨List.nodup_nil, by simp, by simp⟩
  simpa [buildGroups] using this

/-- Membership characterization of the entries set by the positioning
loops. -/
theorem layoutCore_mem (steps : List WorkflowStep) (lvl : String → Int)
    (lo : LayoutConfig) (e : String × NodePosition) :
    e ∈ layoutCore steps lvl lo ↔
      ∃ pr ∈ buildGroups steps lvl, ∃ i s,
        pr.2[i]? = some s ∧
        e = (s.id, posFor lo (buildGroups steps lvl).length pr.1 i pr.2.length) := by
  have hinner : ∀ (K : Nat) (g : Int × List WorkflowStep)
      (pm0 : List (String × NodePosition)),
      g.2.enum.foldl (fun pm2 p => (p.2.id, posFor lo K g.1 p.1 g.2.length) :: pm2) pm0 =
        (g.2.enum.map (fun p => (p.2.id, posFor lo K g.1 p.1 g.2.length))).reverse ++ pm0 :=
    fun K g pm0 => foldl_cons_acc _ g.2.enum pm0
  have houter : ∀ (K : Nat) (gs : List (Int × List WorkflowStep))
      (pm0 : List (String × NodePosition)),
      e ∈ gs.foldl (fun pm g =>
        g.2.enum.foldl (fun pm2 p => (p.2.id, posFor lo K g.1 p.1 g.2.length) :: pm2) pm)
        pm0 ↔
      e ∈ pm0 ∨ ∃ pr ∈ gs, ∃ i s, pr.2[i]? = some s ∧
        e = (s.id, posFor lo K pr.1 i pr.2.length) := by
    intro K gs
    induction gs with
    | nil => intro pm0; simp
    | cons g rest ih =>
      intro pm0
      rw [List.foldl_cons, ih, hinner]
      simp only [List.mem_append, List.mem_reverse, List.mem_map, List.mem_cons]
      constructor
      · rintro (⟨⟨p, hp, hpe⟩ | hpm⟩ | ⟨pr, hpr, i, s, his, he⟩)
        · refine Or.inr ⟨g, Or.inl rfl, p.1, p.2, ?_, hpe.symm⟩
          exact (List.mem_enum_iff_getElem?).mp hp
        · exact Or.inl hpm
        · exact Or.inr ⟨pr, Or.inr hpr, i, s, his, he⟩
      · rintro (hpm | ⟨pr, hpr | hpr, i, s, his, he⟩)
        · exact Or.inl (Or.inr hpm)
        · subst hpr
          refine Or.inl (Or.inl ⟨(i, s), ?_, ?_⟩)
          · rw [List.mem_enum_iff_getElem?]
            exact his
          · exact he.symm
        · exact Or.inr ⟨pr, hpr, i, s, his, he⟩
  rw [layoutCore]
  rw [houter (buildGroups steps lvl).length (buildGroups steps lvl) []]
  simp

theorem alookup_of_unique {α : Type} (key : String) (v : α)
    (pm : List (String × α)) (hmem : (key, v) ∈ pm)
    (huniq : ∀ v', (key, v') ∈ pm → v' = v) :
    alookup key pm = some v := by
  induction pm with
  | nil => cases hmem
  | cons p rest ih =>
    obtain ⟨k, w⟩ := p
    by_cases hk : key = k
    · subst hk
      have : w = v := huniq w (List.mem_cons_self _ _)
      rw [alookup, if_pos rfl, this]
    · rw [alookup, if_neg hk]
      rcases List.mem_cons.mp hmem with h1 | h1
      · cases h1
        exact absurd rfl hk
      · exact ih h1 (fun v' hv' => huniq v' (List.mem_cons_of_mem _ hv'))

/-- C8: the coordinate layout refines the spec formulas. With distinct
step ids and finite levels (the spec's `levels` map is integer-valued),
positioning succeeds and each step's position is
`posFor lo K level siblingIndex groupSize`: cross-axis
`start + (siblingIndex - (groupSize-1)/2) * nodeSpacing` with siblings
in original order (the sibling index is the step's index in the
original-order filter of its level group), primary-axis
`start + adjustedLevel * levelSpacing` (y for TB/BT, x for LR/RL),
where for BT/RL the level index is inverted (`K - 1 - level` over the
`K` distinct levels) so that, when `levelSpacing > 0`, a smaller level
renders strictly further along the primary axis — level 0 at the
reversed end — while sibling ordering is unaffected; the defaults are
nodeSpacing 200, levelSpacing 150, startPosition (250, 50). -/
theorem layout_coordinate_formula (steps : List WorkflowStep) (memo : LevelMemo)
    (lo : LayoutConfig)
    (hnd : (steps.map (fun s => s.id)).Nodup)
    (hfin : ∀ s ∈ steps, (alookup s.id memo).getD 0 ≠ (⊥ : WithBot Int)) :
    ∃ pm : List (String × NodePosition),
      positionsOf steps memo lo = some pm ∧
      (∀ s ∈ steps, ∃ idx : Nat,
        (steps.filter (fun t => ((alookup t.id memo).getD 0).unbot' 0 =
          ((alookup s.id memo).getD 0).unbot' 0))[idx]? = some s ∧
        alookup s.id pm = some (posFor lo
          ((steps.map (fun t => ((alookup t.id memo).getD 0).unbot' 0)).dedup.length)
          (((alookup s.id memo).getD 0).unbot' 0) idx
          (steps.filter (fun t => ((alookup t.id memo).getD 0).unbot' 0 =
            ((alookup s.id memo).getD 0).unbot' 0)).length)) ∧
      (layoutIsReversed lo.direction = true → 0 < lo.levelSpacing →
        ∀ s ∈ steps, ∀ t ∈ steps,
          ((alookup s.id memo).getD 0).unbot' 0 < ((alookup t.id memo).getD 0).unbot' 0 →
          ∀ ps pt : NodePosition, alookup s.id pm = some ps → alookup t.id pm = some pt →
            (if layoutIsHorizontal lo.direction = true then pt.x < ps.x
             else pt.y < ps.y)) ∧
      resolveOptions none =
        { direction := FlowDirection.TB, nodeSpacing := 200, levelSpacing := 150,
          startPosition := { x := 250, y := 50 } } := by
  set lvl : String → Int := fun sid => ((alookup sid memo).getD 0).unbot' 0 with hlvldef
  obtain ⟨hkeysnd, hgrps, hiff⟩ := buildGroups_inv steps lvl
  have hK : (buildGroups steps lvl).length =
      (steps.map (fun t => lvl t.id)).dedup.length := by
    calc (buildGroups steps lvl).length
        = ((buildGroups steps lvl).map Prod.fst).length := (List.length_map _ _).symm
      _ = ((buildGroups steps lvl).map Prod.fst).toFinset.card := by
          rw [List.card_toFinset, List.Nodup.dedup hkeysnd]
      _ = (steps.map (fun t => lvl t.id)).toFinset.card := by
          congr 1
          ext l
          simp only [List.mem_toFinset]
          exact hiff l
      _ = (steps.map (fun t => lvl t.id)).dedup.length := List.card_toFinset _
  have hformula : ∀ s ∈ steps, ∃ idx : Nat,
      (steps.filter (fun t => lvl t.id = lvl s.id))[idx]? = some s ∧
      alookup s.id (layoutCore steps lvl lo) = some (posFor lo
        ((steps.map (fun t => lvl t.id)).dedup.length) (lvl s.id) idx
        (steps.filter (fun t => lvl t.id = lvl s.id)).length) := by
    intro s hs
    have hmemkey : lvl s.id ∈ (buildGroups steps lvl).map Prod.fst :=
      (hiff (lvl s.id)).mpr (List.mem_map_of_mem _ hs)
    obtain ⟨pr, hpr, hprfst⟩ := List.mem_map.mp hmemkey
    have hgrp : pr.2 = steps.filter (fun t => lvl t.id = lvl s.id) := by
      rw [hgrps pr hpr, hprfst]
    have hsmem : s ∈ pr.2 := by
      rw [hgrp]
      exact List.mem_filter.mpr ⟨hs, by simp⟩
    obtain ⟨idx, hidxlt, hidxg⟩ := List.getElem_of_mem hsmem
    have hidx? : pr.2[idx]? = some s := by
      rw [List.getElem?_eq_getElem hidxlt, hidxg]
    refine ⟨idx, ?_, ?_⟩
    · rw [← hgrp]
      exact hidx?
    · apply alookup_of_unique
      · rw [layoutCore_mem]
        refine ⟨pr, hpr, idx, s, hidx?, ?_⟩
        rw [hprfst, hgrp, hK]
      · intro v' hv'
        rw [layoutCore_mem] at hv'
        obtain ⟨pr', hpr', i', s', hi', he'⟩ := hv'
        obtain ⟨hid, hv'eq⟩ := Prod.mk.injEq .. ▸ he'
        have hs'grp : s' ∈ pr'.2 := List.getElem?_mem hi'
        have hs'filter := hgrps pr' hpr' ▸ hs'grp
        have hs'steps : s' ∈ steps := (List.mem_filter.mp hs'filter).1
        have hss : s' = s := List.inj_on_of_nodup_map hnd hs'steps hs hid.symm
        subst hss
        have hlvl' : lvl s'.id = pr'.1 := by
          have := (List.mem_filter.mp hs'filter).2
          simpa using this
        have hgrp' : pr'.2 = pr.2 := by
          rw [hgrps pr' hpr', ← hlvl', hgrp]
        have hnodup2 : pr.2.Nodup := by
          rw [hgrp]
          exact (List.Nodup.of_map _ hnd).filter _
        have hi2 : pr.2[i']? = some s' := by
          rw [← hgrp']
          exact hi'
        obtain ⟨hlt', hg'⟩ := List.getElem?_eq_some.mp hi2
        have hieq : i' = idx :=
          (List.Nodup.getElem_inj_iff hnodup2).mp (hg'.trans hidxg.symm)
        rw [hv'eq, ← hlvl', hieq, hgrp', hgrp, hK]
  refine ⟨layoutCore steps lvl lo, ?_, hformula, ?_, rfl⟩
  · rw [positionsOf, dif_pos hfin]
  · intro hrev hsp s hs t ht hlt ps pt hps hpt
    obtain ⟨idxs, _, hpsf⟩ := hformula s hs
    obtain ⟨idxt, _, hptf⟩ := hformula t ht
    have hpse : ps = posFor lo ((steps.map (fun t => lvl t.id)).dedup.length)
        (lvl s.id) idxs (steps.filter (fun t => lvl t.id = lvl s.id)).length :=
      Option.some.inj (hps.symm.trans hpsf)
    have hpte : pt = posFor lo ((steps.map (fun u => lvl u.id)).dedup.length)
        (lvl t.id) idxt (steps.filter (fun u => lvl u.id = lvl t.id)).length :=
      Option.some.inj (hpt.symm.trans hptf)
    have hmono : ∀ (l1 l2 : Int) (i1 i2 len1 len2 : Nat), l1 < l2 →
        (if layoutIsHorizontal lo.direction = true then
          (posFor lo ((steps.map (fun u => lvl u.id)).dedup.length) l2 i2 len2).x <
            (posFor lo ((steps.map (fun u => lvl u.id)).dedup.length) l1 i1 len1).x
        else
          (posFor lo ((steps.map (fun u => lvl u.id)).dedup.length) l2 i2 len2).y <
            (posFor lo ((steps.map (fun u => lvl u.id)).dedup.length) l1 i1 len1).y) := by
      intro l1 l2 i1 i2 len1 len2 h12
      have hadj : (((steps.map (fun u => lvl u.id)).dedup.length : ℚ) - 1 - (l2 : ℚ)) <
          (((steps.map (fun u => lvl u.id)).dedup.length : ℚ) - 1 - (l1 : ℚ)) := by
        have : (l1 : ℚ) < (l2 : ℚ) := by exact_mod_cast h12
        linarith
      have hmul := mul_lt_mul_of_pos_right hadj hsp
      cases hh : layoutIsHorizontal lo.direction with
      | true =>
        simp only [hh, if_pos, ite_true, posFor, hrev]
        exact add_lt_add_left hmul _
      | false =>
        simp only [hh, ite_false, posFor, hrev]
        exact add_lt_add_left hmul _
    have := hmono (lvl s.id) (lvl t.id) idxs idxt
      (steps.filter (fun u => lvl u.id = lvl s.id)).length
      (steps.filter (fun u => lvl u.id = lvl t.id)).length hlt
    rw [hpse, hpte]
    exact this

/-- Concrete two-step input for the C8 witness. -/
def layoutDemoSteps : List WorkflowStep :=
  [{ id := "a", name := "a", description := none, type := GraphNodeType.input,
     dependencies := none },
   { id := "b", name := "b", description := none, type := GraphNodeType.output,
     dependencies := some [("a")] }]

/-- Concrete level map for the C8 witness: `a ↦ 0`, `b ↦ 1`. -/
def layoutDemoMemo : LevelMemo :=
  [(("a" : String), ((0 : Int) : WithBot Int)), (("b" : String), ((1 : Int) : WithBot Int))]

/-- Witness for C8: two steps at levels 0 and 1 with default options. -/
theorem layout_coordinate_formula_witness :
    ∃ pm : List (String × NodePosition),
      positionsOf layoutDemoSteps layoutDemoMemo DEFAULT_LAYOUT_OPTIONS = some pm ∧
      (∀ s ∈ layoutDemoSteps, ∃ idx : Nat,
        (layoutDemoSteps.filter (fun t =>
          ((alookup t.id layoutDemoMemo).getD 0).unbot' 0 =
          ((alookup s.id layoutDemoMemo).getD 0).unbot' 0))[idx]? = some s ∧
        alookup s.id pm = some (posFor DEFAULT_LAYOUT_OPTIONS
          ((layoutDemoSteps.map (fun t =>
            ((alookup t.id layoutDemoMemo).getD 0).unbot' 0)).dedup.length)
          (((alookup s.id layoutDemoMemo).getD 0).unbot' 0) idx
          (layoutDemoSteps.filter (fun t =>
            ((alookup t.id layoutDemoMemo).getD 0).unbot' 0 =
            ((alookup s.id layoutDemoMemo).getD 0).unbot' 0)).length)) ∧
      (layoutIsReversed DEFAULT_LAYOUT_OPTIONS.direction = true →
        0 < DEFAULT_LAYOUT_OPTIONS.levelSpacing →
        ∀ s ∈ layoutDemoSteps, ∀ t ∈ layoutDemoSteps,
          ((alookup s.id layoutDemoMemo).getD 0).unbot' 0 <
          ((alookup t.id layoutDemoMemo).getD 0).unbot' 0 →
          ∀ ps pt : NodePosition, alookup s.id pm = some ps → alookup t.id pm = some pt →
            (if layoutIsHorizontal DEFAULT_LAYOUT_OPTIONS.direction = true then pt.x < ps.x
             else pt.y < ps.y)) ∧
      resolveOptions none =
        { direction := FlowDirection.TB, nodeSpacing := 200, levelSpacing := 150,
          startPosition := { x := 250, y := 50 } } :=
  layout_coordinate_formula layoutDemoSteps layoutDemoMemo DEFAULT_LAYOUT_OPTIONS
    (by decide) (by decide)

end Flow
